import Mathlib

/-!
Shallow embedding of the indexing-and-retrieval core of the code-buddy
repository: the chunker (`code_parser.py`), the embedder
(`embedding_generator.py`), the point-identifier derivation of the indexing
pipeline (`code-indexer/main.py`), and the query-time retrieval path
(`rag-chat/main.py`).  Pure Python string manipulation is translated into
structural Lean functions over `List Char` / `List String`; code that can
raise is modelled in the `Except` monad with the external transport calls
passed in as explicit parameters.
-/

namespace CodeBuddy

/-- A chunk as produced by `CodeParser`: the dictionaries built in
`_parse_python`, `_parse_javascript` and `_parse_generic` with keys
`content`, `start_line`, `end_line`, `type`, `language`. -/
structure Chunk where
  content : String
  start_line : Nat
  end_line : Nat
  type : String
  language : String
deriving DecidableEq

/-! ### Python-faithful string primitives

Python's `str.split('\n')`, `str.lstrip()`, `str.strip()`, `str.startswith`,
substring containment (`in`), `str.count` and `'\n'.join` are re-implemented
as structural recursions so that every definition evaluates by kernel
reduction. -/

/-- The whitespace characters stripped by Python's `str.strip` /
`str.lstrip` (for ASCII text): space, tab, newline, carriage return,
vertical tab, form feed. -/
def pyWs (c : Char) : Bool :=
  c == ' ' || c == '\t' || c == '\n' || c == '\r' || c == '\x0b' || c == '\x0c'

/-- Drop leading whitespace characters. -/
def dropWs : List Char → List Char
  | [] => []
  | c :: rest => if pyWs c then dropWs rest else c :: rest

/-- Python `s.lstrip()`. -/
def lstripStr (s : String) : String := String.mk (dropWs s.data)

/-- Python `s.strip()`. -/
def stripStr (s : String) : String :=
  String.mk (List.reverse (dropWs (List.reverse (dropWs s.data))))

/-- `isPre p l` holds when the character list `p` is an initial segment of
`l` (Python `startswith` on the underlying text). -/
def isPre : List Char → List Char → Bool
  | [], _ => true
  | _ :: _, [] => false
  | p :: ps, c :: cs => p == c && isPre ps cs

/-- Python `s.startswith(pre)`. -/
def startsWithStr (s pre : String) : Bool := isPre pre.data s.data

/-- Helper for substring containment: does `pat` occur in the list? -/
def containsSubAux (pat : List Char) : List Char → Bool
  | [] => isPre pat []
  | c :: rest => isPre pat (c :: rest) || containsSubAux pat rest

/-- Python `pat in s` (substring containment). -/
def containsSub (s pat : String) : Bool := containsSubAux pat.data s.data

/-- Occurrences of the character `c` in a character list. -/
def countCharL (c : Char) : List Char → Nat
  | [] => 0
  | x :: rest => (if x == c then 1 else 0) + countCharL c rest

/-- Python `s.count(c)` for a single-character pattern. -/
def countChar (s : String) (c : Char) : Nat := countCharL c s.data

/-- Python `c in s` for a single character. -/
def containsChar (s : String) (c : Char) : Bool := s.data.any (· == c)

/-- Helper for `splitLines`: `acc` holds the (reversed) current line. -/
def splitLinesAux : List Char → List Char → List String
  | acc, [] => [String.mk acc.reverse]
  | acc, c :: rest =>
    if c == '\n' then String.mk acc.reverse :: splitLinesAux [] rest
    else splitLinesAux (c :: acc) rest

/-- Python `content.split('\n')`: always a non-empty list of lines. -/
def splitLines (s : String) : List String := splitLinesAux [] s.data

/-- The line count of a file, `len(content.split('\n'))`. -/
def numLines (s : String) : Nat := (splitLines s).length

/-- Python `'\n'.join(ls)`. -/
def joinNl : List String → String
  | [] => ""
  | [s] => s
  | s :: t :: rest => s ++ "\n" ++ joinNl (t :: rest)

/-- Python `'\n'.join(lines[a:b])` (0-based, end-exclusive slice). -/
def sliceJoin (lines : List String) (a b : Nat) : String :=
  joinNl ((lines.drop a).take (b - a))

/-- Python `'\n'.join(lines[a:])`. -/
def sliceJoinFrom (lines : List String) (a : Nat) : String :=
  joinNl (lines.drop a)

/-! ### The Python-family scanner (`CodeParser._parse_python`) -/

/-- `stripped.startswith(('def ', 'class ', 'async def '))`. -/
def startsDef (stripped : String) : Bool :=
  startsWithStr stripped "def " || startsWithStr stripped "class " ||
    startsWithStr stripped "async def "

/-- The loop state of `_parse_python`: accumulated `chunks`, the open
`current_chunk` label, `current_indent`, `chunk_start`. -/
structure PyState where
  chunks : List Chunk
  current : Option String
  currentIndent : Nat
  chunkStart : Nat
deriving DecidableEq

/-- One iteration of the `_parse_python` line loop at 1-based line number
`i`. -/
def pyStep (lines : List String) (i : Nat) (line : String) (s : PyState) : PyState :=
  let stripped := lstripStr line
  if stripped == "" || startsWithStr stripped "#" then s
  else
    let indent := line.length - stripped.length
    if startsDef stripped then
      let chunks :=
        match s.current with
        | some t =>
          s.chunks ++ [{ content := sliceJoin lines (s.chunkStart - 1) (i - 1),
                         start_line := s.chunkStart, end_line := i - 1,
                         type := t, language := "python" }]
        | none => s.chunks
      { chunks := chunks,
        current := some (if containsSub stripped "def" then "function" else "class"),
        currentIndent := indent, chunkStart := i }
    else
      match s.current with
      | some t =>
        if indent ≤ s.currentIndent then
          { chunks := s.chunks ++ [{ content := sliceJoin lines (s.chunkStart - 1) i,
                                     start_line := s.chunkStart, end_line := i,
                                     type := t, language := "python" }],
            current := none, currentIndent := s.currentIndent,
            chunkStart := s.chunkStart }
        else s
      | none => s

/-- `for i, line in enumerate(lines, 1)` driving `pyStep`. -/
def pyLoop (lines : List String) : Nat → List String → PyState → PyState
  | _, [], s => s
  | i, l :: rest, s => pyLoop lines (i + 1) rest (pyStep lines i l s)

/-- After the `_parse_python` loop: emit the still-open chunk up to the
last line, and fall back to a single whole-file chunk when no chunk was
found. -/
def pyFinish (content : String) (lines : List String) (s : PyState) : List Chunk :=
  let chunks :=
    match s.current with
    | some t =>
      s.chunks ++ [{ content := sliceJoinFrom lines (s.chunkStart - 1),
                     start_line := s.chunkStart, end_line := lines.length,
                     type := t, language := "python" }]
    | none => s.chunks
  if chunks.isEmpty then
    [{ content := content, start_line := 1, end_line := lines.length,
       type := "file", language := "python" }]
  else chunks

/-- `CodeParser._parse_python`. -/
def parsePython (content : String) : List Chunk :=
  let lines := splitLines content
  pyFinish content lines
    (pyLoop lines 1 lines { chunks := [], current := none, currentIndent := 0, chunkStart := 0 })

/-! ### The JavaScript/TypeScript scanner (`CodeParser._parse_javascript`) -/

/-- The keyword substrings scanned for by `_parse_javascript`. -/
def jsKeywords : List String :=
  ["function ", "class ", "const ", "let ", "export ", "async function"]

/-- The loop state of `_parse_javascript`.  `brace_count` can go negative
in Python, so it is an `Int`. -/
structure JsState where
  chunks : List Chunk
  current : Option String
  chunkStart : Nat
  braceCount : Int
deriving DecidableEq

/-- The keyword-detection stage of one `_parse_javascript` iteration. -/
def jsOpen (lines : List String) (language : String) (i : Nat) (stripped : String)
    (s : JsState) : JsState :=
  if jsKeywords.any (fun k => containsSub stripped k) then
    let chunks :=
      match s.current with
      | some t =>
        s.chunks ++ [{ content := sliceJoin lines (s.chunkStart - 1) (i - 1),
                       start_line := s.chunkStart, end_line := i - 1,
                       type := t, language := language }]
      | none => s.chunks
    let t := if containsSub stripped "function" then "function"
             else if containsSub stripped "class" then "class" else "variable"
    { chunks := chunks, current := some t, chunkStart := i,
      braceCount := (countChar stripped '\x7b' : Int) - (countChar stripped '\x7d' : Int) }
  else s

/-- The brace-tracking stage: `brace_count += line.count(open) - line.count(close)`. -/
def jsAddBraces (line : String) (s : JsState) : JsState :=
  { s with braceCount := s.braceCount + (countChar line '\x7b' : Int) - (countChar line '\x7d' : Int) }

/-- The chunk-closing stage of one `_parse_javascript` iteration. -/
def jsClose (lines : List String) (language : String) (i : Nat) (line : String)
    (s : JsState) : JsState :=
  match s.current with
  | some t =>
    if s.braceCount == 0 && containsChar line '\x7b' then
      { s with
        chunks := s.chunks ++ [{ content := sliceJoin lines (s.chunkStart - 1) i,
                                 start_line := s.chunkStart, end_line := i,
                                 type := t, language := language }],
        current := none }
    else s
  | none => s

/-- One iteration of the `_parse_javascript` line loop. -/
def jsStep (lines : List String) (language : String) (i : Nat) (line : String)
    (s : JsState) : JsState :=
  jsClose lines language i line
    (jsAddBraces line (jsOpen lines language i (stripStr line) s))

/-- `for i, line in enumerate(lines, 1)` driving `jsStep`. -/
def jsLoop (lines : List String) (language : String) :
    Nat → List String → JsState → JsState
  | _, [], s => s
  | i, l :: rest, s => jsLoop lines language (i + 1) rest (jsStep lines language i l s)

/-- After the `_parse_javascript` loop: emit the still-open chunk up to
the last line, with the whole-file fallback. -/
def jsFinish (content : String) (language : String) (lines : List String) (s : JsState) :
    List Chunk :=
  let chunks :=
    match s.current with
    | some t =>
      s.chunks ++ [{ content := sliceJoinFrom lines (s.chunkStart - 1),
                     start_line := s.chunkStart, end_line := lines.length,
                     type := t, language := language }]
    | none => s.chunks
  if chunks.isEmpty then
    [{ content := content, start_line := 1, end_line := lines.length,
       type := "file", language := language }]
  else chunks

/-- `CodeParser._parse_javascript`. -/
def parseJavascript (content : String) (language : String) : List Chunk :=
  let lines := splitLines content
  jsFinish content language lines
    (jsLoop lines language 1 lines { chunks := [], current := none, chunkStart := 0, braceCount := 0 })

/-! ### The generic fallback (`CodeParser._parse_generic`) -/

/-- `CodeParser._parse_generic`: fixed windows of `max_chunk_size = 100`
lines.  Python's `for i in range(0, len(lines), 100)` runs once per window,
i.e. `(len + 99) / 100` times with `i = 100 * k`. -/
def parseGeneric (content : String) (language : String) : List Chunk :=
  let lines := splitLines content
  let n := lines.length
  (List.range ((n + 99) / 100)).map (fun k =>
    let i := 100 * k
    { content := joinNl ((lines.drop i).take 100),
      start_line := i + 1, end_line := min (i + 100) n,
      type := "code", language := language })

/-! ### `CodeParser.parse_file` and language dispatch -/

/-- The `ext_to_lang` table of `CodeParser._detect_language`. -/
def extToLang : List (String × String) :=
  [(".py", "python"), (".js", "javascript"), (".jsx", "javascript"),
   (".ts", "typescript"), (".tsx", "typescript"), (".java", "java"),
   (".go", "go"), (".rs", "rust"), (".cpp", "cpp"), (".c", "c"),
   (".h", "c"), (".hpp", "cpp"), (".cs", "csharp"), (".rb", "ruby"),
   (".php", "php"), (".swift", "swift"), (".kt", "kotlin"),
   (".scala", "scala"), (".clj", "clojure"), (".sh", "bash"),
   (".bash", "bash"), (".zsh", "bash"), (".yaml", "yaml"),
   (".yml", "yaml"), (".json", "json"), (".toml", "toml"),
   (".md", "markdown"), (".rst", "rst")]

/-- `CodeParser._detect_language`: `ext_to_lang.get(suffix, 'unknown')`. -/
def detectLanguage (suffix : String) : String :=
  match extToLang.find? (fun p => p.1 == suffix) with
  | some p => p.2
  | none => "unknown"

/-- The body of `CodeParser.parse_file` inside its `try`: read the file
(the read may raise, so it is passed in as an `Except`), detect the
language, and dispatch to the per-language scanner.  `_parse_java`,
`_parse_go` and `_parse_rust` all delegate to `_parse_generic`. -/
def parseFileBody (readResult : Except String String) (suffix : String) :
    Except String (List Chunk) := do
  let content ← readResult
  let language := detectLanguage suffix
  if language == "python" then pure (parsePython content)
  else if language == "javascript" || language == "typescript" then
    pure (parseJavascript content language)
  else if language == "java" then pure (parseGeneric content "java")
  else if language == "go" then pure (parseGeneric content "go")
  else if language == "rust" then pure (parseGeneric content "rust")
  else pure (parseGeneric content language)

/-- `CodeParser.parse_file`: the catch-all `except Exception` logs a
warning and returns `[]`, so the call as a whole never raises. -/
def parse_file (readResult : Except String String) (suffix : String) :
    Except String (List Chunk) :=
  match parseFileBody readResult suffix with
  | Except.ok chunks => Except.ok chunks
  | Except.error _ => Except.ok []

/-- Does an `Except` hold a success value? -/
def exceptIsOk {ε α : Type} : Except ε α → Bool
  | Except.ok _ => true
  | Except.error _ => false

/-! ### MD5 and the VectorPoint identifier (`perform_indexing` in
`code-indexer/main.py`)

`point_id = int(hashlib.md5(f"\x7bfile_path\x7d:\x7bchunk['start_line']\x7d:\x7bchunk['end_line']\x7d".encode()).hexdigest()[:8], 16)`.
MD5 (RFC 1321) is implemented over byte lists with `Nat` arithmetic
modulo `2 ^ 32`. -/

/-- Reduce to a 32-bit word. -/
def w32 (n : Nat) : Nat := n % 4294967296

/-- Bitwise complement on 32-bit words. -/
def wnot (x : Nat) : Nat := 4294967295 - x

/-- Left-rotation of a 32-bit word by `s` bits. -/
def rotl32 (x s : Nat) : Nat := w32 (x <<< s) ||| (x >>> (32 - s))

/-- The 64 MD5 sine-derived constants. -/
def md5K : List Nat :=
  [0xd76aa478, 0xe8c7b756, 0x242070db, 0xc1bdceee,
   0xf57c0faf, 0x4787c62a, 0xa8304613, 0xfd469501,
   0x698098d8, 0x8b44f7af, 0xffff5bb1, 0x895cd7be,
   0x6b901122, 0xfd987193, 0xa679438e, 0x49b40821,
   0xf61e2562, 0xc040b340, 0x265e5a51, 0xe9b6c7aa,
   0xd62f105d, 0x02441453, 0xd8a1e681, 0xe7d3fbc8,
   0x21e1cde6, 0xc33707d6, 0xf4d50d87, 0x455a14ed,
   0xa9e3e905, 0xfcefa3f8, 0x676f02d9, 0x8d2a4c8a,
   0xfffa3942, 0x8771f681, 0x6d9d6122, 0xfde5380c,
   0xa4beea44, 0x4bdecfa9, 0xf6bb4b60, 0xbebfbc70,
   0x289b7ec6, 0xeaa127fa, 0xd4ef3085, 0x04881d05,
   0xd9d4d039, 0xe6db99e5, 0x1fa27cf8, 0xc4ac5665,
   0xf4292244, 0x432aff97, 0xab9423a7, 0xfc93a039,
   0x655b59c3, 0x8f0ccc92, 0xffeff47d, 0x85845dd1,
   0x6fa87e4f, 0xfe2ce6e0, 0xa3014314, 0x4e0811a1,
   0xf7537e82, 0xbd3af235, 0x2ad7d2bb, 0xeb86d391]

/-- The 64 MD5 per-round left-rotation amounts. -/
def md5S : List Nat :=
  [7, 12, 17, 22, 7, 12, 17, 22, 7, 12, 17, 22, 7, 12, 17, 22,
   5, 9, 14, 20, 5, 9, 14, 20, 5, 9, 14, 20, 5, 9, 14, 20,
   4, 11, 16, 23, 4, 11, 16, 23, 4, 11, 16, 23, 4, 11, 16, 23,
   6, 10, 15, 21, 6, 10, 15, 21, 6, 10, 15, 21, 6, 10, 15, 21]

/-- A little-endian 32-bit word from four bytes. -/
def leWord (b0 b1 b2 b3 : Nat) : Nat :=
  b0 + 256 * b1 + 65536 * b2 + 16777216 * b3

/-- Group a byte list into little-endian 32-bit words. -/
def toWords : List Nat → List Nat
  | b0 :: b1 :: b2 :: b3 :: rest => leWord b0 b1 b2 b3 :: toWords rest
  | _ => []

/-- `k` little-endian bytes of `n`. -/
def leBytes (n : Nat) : Nat → List Nat
  | 0 => []
  | k + 1 => n % 256 :: leBytes (n / 256) k

/-- MD5 padding: append `0x80`, zero bytes up to 56 mod 64, then the
64-bit little-endian bit length. -/
def md5Pad (msg : List Nat) : List Nat :=
  msg ++ [128] ++ List.replicate ((119 - msg.length % 64) % 64) 0 ++
    leBytes (8 * msg.length) 8

/-- The 64 MD5 rounds on one message block `M` (16 words), iterating the
round index `i` with explicit fuel. -/
def md5RoundLoop (M : List Nat) : Nat → Nat → Nat × Nat × Nat × Nat → Nat × Nat × Nat × Nat
  | 0, _, st => st
  | fuel + 1, i, (a, b, c, d) =>
    let f := if i < 16 then (b &&& c) ||| (wnot b &&& d)
             else if i < 32 then (d &&& b) ||| (wnot d &&& c)
             else if i < 48 then b ^^^ c ^^^ d
             else c ^^^ (b ||| wnot d)
    let g := if i < 16 then i
             else if i < 32 then (5 * i + 1) % 16
             else if i < 48 then (3 * i + 5) % 16
             else (7 * i) % 16
    let F := w32 (f + a + md5K.getD i 0 + M.getD g 0)
    md5RoundLoop M fuel (i + 1) (d, w32 (b + rotl32 F (md5S.getD i 0)), b, c)

/-- Process the padded message, 16 words (64 bytes) per block. -/
def md5Blocks : List Nat → Nat × Nat × Nat × Nat → Nat × Nat × Nat × Nat
  | w0 :: w1 :: w2 :: w3 :: w4 :: w5 :: w6 :: w7 ::
      w8 :: w9 :: w10 :: w11 :: w12 :: w13 :: w14 :: w15 :: rest, (a0, b0, c0, d0) =>
    let M := [w0, w1, w2, w3, w4, w5, w6, w7, w8, w9, w10, w11, w12, w13, w14, w15]
    let r := md5RoundLoop M 64 0 (a0, b0, c0, d0)
    md5Blocks rest (w32 (a0 + r.1), w32 (b0 + r.2.1), w32 (c0 + r.2.2.1), w32 (d0 + r.2.2.2))
  | _, st => st

/-- A lowercase hexadecimal digit. -/
def hexDigit (n : Nat) : Char :=
  if n < 10 then Char.ofNat (48 + n) else Char.ofNat (87 + n)

/-- Two hexadecimal digits of a byte. -/
def byteHex (b : Nat) : List Char := [hexDigit (b / 16), hexDigit (b % 16)]

/-- The eight hexadecimal digits of a 32-bit word, little-endian byte
order as in `hexdigest`. -/
def wordLeHex (w : Nat) : List Char :=
  byteHex (w % 256) ++ byteHex (w / 256 % 256) ++
    byteHex (w / 65536 % 256) ++ byteHex (w / 16777216 % 256)

/-- `hashlib.md5(msg).hexdigest()` for a byte list `msg`. -/
def md5hex (msg : List Nat) : String :=
  let r := md5Blocks (toWords (md5Pad msg)) (1732584193, 4023233417, 2562383102, 271733878)
  String.mk (wordLeHex r.1 ++ wordLeHex r.2.1 ++ wordLeHex r.2.2.1 ++ wordLeHex r.2.2.2)

/-- UTF-8 encoding of one character (Python `str.encode()`). -/
def utf8Char (c : Char) : List Nat :=
  let n := c.toNat
  if n < 128 then [n]
  else if n < 2048 then [192 + n / 64, 128 + n % 64]
  else if n < 65536 then [224 + n / 4096, 128 + n / 64 % 64, 128 + n % 64]
  else [240 + n / 262144, 128 + n / 4096 % 64, 128 + n / 64 % 64, 128 + n % 64]

/-- UTF-8 byte list of a string. -/
def utf8Bytes (s : String) : List Nat := (s.data.map utf8Char).flatten

/-- Value of a lowercase hexadecimal digit. -/
def hexVal (c : Char) : Nat :=
  if c.toNat ≥ 97 then c.toNat - 87
  else if c.toNat ≥ 65 then c.toNat - 55
  else c.toNat - 48

/-- Python `int(s, 16)` on a hexadecimal string. -/
def hexToNat (s : String) : Nat := s.data.foldl (fun acc c => 16 * acc + hexVal c) 0

/-- The first `n` characters of a string (Python `s[:n]`). -/
def takeChars (s : String) (n : Nat) : String := String.mk (s.data.take n)

/-- The key string hashed by `perform_indexing`:
`f"...file_path...:...start_line...:...end_line..."`. -/
def pointKey (filePath : String) (startLine endLine : Nat) : String :=
  filePath ++ ":" ++ toString startLine ++ ":" ++ toString endLine

/-- The VectorPoint identifier of `perform_indexing`:
`int(hashlib.md5(key.encode()).hexdigest()[:8], 16)`. -/
def point_id (filePath : String) (startLine endLine : Nat) : Nat :=
  hexToNat (takeChars (md5hex (utf8Bytes (pointKey filePath startLine endLine))) 8)

/-- The identifier assigned to a chunk's VectorPoint during indexing. -/
def chunkPointId (filePath : String) (c : Chunk) : Nat :=
  point_id filePath c.start_line c.end_line

/-! ### The Embedder (`EmbeddingGenerator.generate_embedding`)

The HTTP transport is passed in as a function from the submitted prompt to
either an error (any raised exception) or the decoded JSON response.
Vector components carry no arithmetic in the claims, so the float `0.0`
is modelled as `(0 : Int)`. -/

/-- The decoded JSON body of the embeddings endpoint:
`result.get("embedding", [])` reads an optional field. -/
structure EmbedResponse where
  embedding : Option (List Int)
deriving DecidableEq

/-- `EmbeddingGenerator.generate_embedding`: truncate the text to 8192
characters, call the service, and on any failure fall back to the
all-zero 768-vector. -/
def generate_embedding (service : String → Except String EmbedResponse)
    (text : String) : List Int :=
  match service (takeChars text 8192) with
  | Except.ok r => r.embedding.getD []
  | Except.error _ => List.replicate 768 0

/-! ### Query-time retrieval (`rag-chat/main.py`)

Only `generate_query_embedding` is embedded.  The `/search` handler
`search_code` in the source is not valid Python: its first `try:` block
has no `except` or `finally` clause (the suite dedents into a stray
duplicated docstring followed by a second `try:`), which is a
SyntaxError, so the module cannot be imported and that handler has no
executable behavior that a shallow embedding could model. -/

/-- `generate_query_embedding`: on success return
`result.get("embedding", [])`; the `except` clause logs and re-raises. -/
def generate_query_embedding (transport : Except String (Option (List Int))) :
    Except String (List Int) :=
  match transport with
  | Except.ok emb => Except.ok (emb.getD [])
  | Except.error e => Except.error e

/-! ### Invariants of the scanners -/

/-- Two chunks occupy disjoint line ranges, the first strictly before the
second. -/
def chunkDisj (a b : Chunk) : Prop := a.end_line < b.start_line

/-- Loop invariant of the `_parse_python` scan before processing line `i`:
all emitted chunks are well-formed and end before line `i`, they are
pairwise disjoint in emission order, and an open chunk started at a line
in `[1, i)` strictly after every emitted chunk. -/
def pyInv (i : Nat) (s : PyState) : Prop :=
  (∀ c ∈ s.chunks, 1 ≤ c.start_line ∧ c.start_line ≤ c.end_line ∧ c.end_line + 1 ≤ i) ∧
  (s.current.isSome = true → 1 ≤ s.chunkStart ∧ s.chunkStart + 1 ≤ i) ∧
  s.chunks.Pairwise chunkDisj ∧
  (s.current.isSome = true → ∀ c ∈ s.chunks, c.end_line < s.chunkStart)

/-- Loop invariant of the `_parse_javascript` scan before processing line
`i`; identical in shape to `pyInv`. -/
def jsInv (i : Nat) (s : JsState) : Prop :=
  (∀ c ∈ s.chunks, 1 ≤ c.start_line ∧ c.start_line ≤ c.end_line ∧ c.end_line + 1 ≤ i) ∧
  (s.current.isSome = true → 1 ≤ s.chunkStart ∧ s.chunkStart + 1 ≤ i) ∧
  s.chunks.Pairwise chunkDisj ∧
  (s.current.isSome = true → ∀ c ∈ s.chunks, c.end_line < s.chunkStart)

/-- Intermediate invariant holding between the keyword stage and the
closing stage of a `_parse_javascript` iteration: an open chunk may now
start at line `i` itself. -/
def jsInvMid (i : Nat) (s : JsState) : Prop :=
  (∀ c ∈ s.chunks, 1 ≤ c.start_line ∧ c.start_line ≤ c.end_line ∧ c.end_line + 1 ≤ i) ∧
  (s.current.isSome = true → 1 ≤ s.chunkStart ∧ s.chunkStart ≤ i) ∧
  s.chunks.Pairwise chunkDisj ∧
  (s.current.isSome = true → ∀ c ∈ s.chunks, c.end_line < s.chunkStart)

/-- The chunk kinds the chunker can emit. -/
def chunkKinds : List String := ["function", "class", "variable", "file", "code"]

/-- Kind invariant for the `_parse_python` loop state. -/
def pyKindInv (s : PyState) : Prop :=
  (∀ c ∈ s.chunks, c.type ∈ chunkKinds) ∧ (∀ t, s.current = some t → t ∈ chunkKinds)

/-- Kind invariant for the `_parse_javascript` loop state. -/
def jsKindInv (s : JsState) : Prop :=
  (∀ c ∈ s.chunks, c.type ∈ chunkKinds) ∧ (∀ t, s.current = some t → t ∈ chunkKinds)

/-- The 5-line Python scenario file of the spec: `def foo():` at line 1,
an indented body through line 4, and a new top-level statement at
line 5. -/
def pyFile5 : String := "def foo():\n    a = 1\n    b = 2\n    c = 3\nx = 1"

/-! ## Theorems -/

/-- `content.split('\n')` is never empty. -/
theorem splitLinesAux_length_pos (acc l : List Char) :
    1 ≤ (splitLinesAux acc l).length := by
  induction l generalizing acc with
  | nil => simp [splitLinesAux]
  | cons c rest ih =>
    by_cases h : (c == '\n') = true
    · simp [splitLinesAux, h]
    · simpa [splitLinesAux, h] using ih (c :: acc)

/-- A file always has at least one line. -/
theorem numLines_pos (s : String) : 1 ≤ numLines s :=
  splitLinesAux_length_pos [] s.data

/-- Appending a chunk beyond every emitted chunk preserves pairwise
disjointness. -/
theorem pairwise_append_one {l : List Chunk} {x : Chunk}
    (h1 : l.Pairwise chunkDisj) (h2 : ∀ c ∈ l, c.end_line < x.start_line) :
    (l ++ [x]).Pairwise chunkDisj := by
  rw [List.pairwise_append]
  refine ⟨h1, List.pairwise_singleton _ _, ?_⟩
  intro a ha b hb
  simp only [List.mem_singleton] at hb
  subst hb
  exact h2 a ha

/-- The invariant is monotone in the line counter. -/
theorem pyInv_mono {i j : Nat} {s : PyState} (hij : i ≤ j) (h : pyInv i s) :
    pyInv j s := by
  obtain ⟨hb, hcur, hpw, hlt⟩ := h
  refine ⟨fun c hc => ?_, fun ho => ?_, hpw, hlt⟩
  · have := hb c hc; omega
  · have := hcur ho; omega

/-- Branch equation for `pyStep`: blank or comment lines are skipped. -/
theorem pyStep_skip {lines : List String} {i : Nat} {line : String} {s : PyState}
    (h : (lstripStr line == "" || startsWithStr (lstripStr line) "#") = true) :
    pyStep lines i line s = s := by
  simp [pyStep, h]

/-- Branch equation for `pyStep`: a definition line with no open chunk. -/
theorem pyStep_def_none {lines : List String} {i : Nat} {line : String} {s : PyState}
    (h1 : (lstripStr line == "" || startsWithStr (lstripStr line) "#") = false)
    (h2 : startsDef (lstripStr line) = true) (hc : s.current = none) :
    pyStep lines i line s =
      { chunks := s.chunks,
        current := some (if containsSub (lstripStr line) "def" then "function" else "class"),
        currentIndent := line.length - (lstripStr line).length, chunkStart := i } := by
  simp [pyStep, h1, h2, hc]

/-- Branch equation for `pyStep`: a definition line closes the open chunk
at line `i - 1` and opens a new one at line `i`. -/
theorem pyStep_def_some {lines : List String} {i : Nat} {line : String} {s : PyState} {t : String}
    (h1 : (lstripStr line == "" || startsWithStr (lstripStr line) "#") = false)
    (h2 : startsDef (lstripStr line) = true) (hc : s.current = some t) :
    pyStep lines i line s =
      { chunks := s.chunks ++ [{ content := sliceJoin lines (s.chunkStart - 1) (i - 1),
                                 start_line := s.chunkStart, end_line := i - 1,
                                 type := t, language := "python" }],
        current := some (if containsSub (lstripStr line) "def" then "function" else "class"),
        currentIndent := line.length - (lstripStr line).length, chunkStart := i } := by
  simp [pyStep, h1, h2, hc]

/-- Branch equation for `pyStep`: a dedented code line closes the open
chunk at line `i` (the dedent line itself is absorbed). -/
theorem pyStep_dedent {lines : List String} {i : Nat} {line : String} {s : PyState} {t : String}
    (h1 : (lstripStr line == "" || startsWithStr (lstripStr line) "#") = false)
    (h2 : startsDef (lstripStr line) = false) (hc : s.current = some t)
    (h3 : line.length - (lstripStr line).length ≤ s.currentIndent) :
    pyStep lines i line s =
      { chunks := s.chunks ++ [{ content := sliceJoin lines (s.chunkStart - 1) i,
                                 start_line := s.chunkStart, end_line := i,
                                 type := t, language := "python" }],
        current := none, currentIndent := s.currentIndent, chunkStart := s.chunkStart } := by
  simp [pyStep, h1, h2, hc, h3]

/-- Branch equation for `pyStep`: an ordinary line inside an open chunk,
or any code line with no open chunk, leaves the state unchanged. -/
theorem pyStep_keep {lines : List String} {i : Nat} {line : String} {s : PyState}
    (h1 : (lstripStr line == "" || startsWithStr (lstripStr line) "#") = false)
    (h2 : startsDef (lstripStr line) = false)
    (h3 : s.current = none ∨ ¬ line.length - (lstripStr line).length ≤ s.currentIndent) :
    pyStep lines i line s = s := by
  rcases h3 with hc | h3
  · simp [pyStep, h1, h2, hc]
  · cases hc : s.current with
    | none => simp [pyStep, h1, h2, hc]
    | some t => simp [pyStep, h1, h2, hc, h3]

/-- One `_parse_python` iteration preserves the invariant. -/
theorem pyStep_inv (lines : List String) (i : Nat) (line : String) (s : PyState)
    (hi : 1 ≤ i) (h : pyInv i s) : pyInv (i + 1) (pyStep lines i line s) := by
  obtain ⟨hb, hcur, hpw, hlt⟩ := h
  by_cases h1 : (lstripStr line == "" || startsWithStr (lstripStr line) "#") = true
  · rw [pyStep_skip h1]
    exact pyInv_mono (by omega) ⟨hb, hcur, hpw, hlt⟩
  · rw [Bool.not_eq_true] at h1
    by_cases h2 : startsDef (lstripStr line) = true
    · cases hc : s.current with
      | none =>
        rw [pyStep_def_none h1 h2 hc]
        unfold pyInv
        dsimp only
        refine ⟨fun c hcm => ?_, fun _ => ⟨hi, by omega⟩, hpw, fun _ c hcm => ?_⟩
        · have := hb c hcm; omega
        · have := (hb c hcm).2.2; omega
      | some t =>
        have hop : s.current.isSome = true := by simp [hc]
        obtain ⟨hcs1, hcs2⟩ := hcur hop
        rw [pyStep_def_some h1 h2 hc]
        unfold pyInv
        dsimp only
        refine ⟨?_, fun _ => ⟨hi, by omega⟩, ?_, ?_⟩
        · intro c hcm
          simp only [List.mem_append, List.mem_singleton] at hcm
          rcases hcm with hcm | hcm
          · have := hb c hcm; omega
          · subst hcm; dsimp only; omega
        · refine pairwise_append_one hpw (fun c hcm => ?_)
          have := hlt hop c hcm
          show c.end_line < s.chunkStart
          omega
        · intro _ c hcm
          simp only [List.mem_append, List.mem_singleton] at hcm
          rcases hcm with hcm | hcm
          · have := (hb c hcm).2.2
            show c.end_line < i
            omega
          · subst hcm
            show i - 1 < i
            omega
    · rw [Bool.not_eq_true] at h2
      cases hc : s.current with
      | none =>
        rw [pyStep_keep h1 h2 (Or.inl hc)]
        exact pyInv_mono (by omega) ⟨hb, hcur, hpw, hlt⟩
      | some t =>
        have hop : s.current.isSome = true := by simp [hc]
        obtain ⟨hcs1, hcs2⟩ := hcur hop
        by_cases h3 : line.length - (lstripStr line).length ≤ s.currentIndent
        · rw [pyStep_dedent h1 h2 hc h3]
          unfold pyInv
          dsimp only
          refine ⟨?_, by simp, ?_, by simp⟩
          · intro c hcm
            simp only [List.mem_append, List.mem_singleton] at hcm
            rcases hcm with hcm | hcm
            · have := hb c hcm; omega
            · subst hcm; dsimp only; omega
          · refine pairwise_append_one hpw (fun c hcm => ?_)
            have := hlt hop c hcm
            show c.end_line < s.chunkStart
            omega
        · rw [pyStep_keep h1 h2 (Or.inr h3)]
          exact pyInv_mono (by omega) ⟨hb, hcur, hpw, hlt⟩

/-- The `_parse_python` loop preserves the invariant across the remaining
lines. -/
theorem pyLoop_inv (lines : List String) (rest : List String) :
    ∀ (i : Nat) (s : PyState), 1 ≤ i → pyInv i s →
      pyInv (i + rest.length) (pyLoop lines i rest s) := by
  induction rest with
  | nil => intro i s _ h; simpa [pyLoop] using h
  | cons l rest ih =>
    intro i s hi h
    have step := pyStep_inv lines i l s hi h
    have tail := ih (i + 1) (pyStep lines i l s) (by omega) step
    have : i + (l :: rest).length = (i + 1) + rest.length := by
      simp [List.length_cons]; omega
    rw [this]
    simpa [pyLoop] using tail

/-- `pyFinish` turns an invariant-respecting final state into a
well-bounded, pairwise-disjoint chunk list. -/
theorem pyFinish_props (content : String) (lines : List String) (s : PyState)
    (hn : 1 ≤ lines.length) (h : pyInv (lines.length + 1) s) :
    (∀ c ∈ pyFinish content lines s,
        1 ≤ c.start_line ∧ c.start_line ≤ c.end_line ∧ c.end_line ≤ lines.length) ∧
    (pyFinish content lines s).Pairwise chunkDisj := by
  obtain ⟨hb, hcur, hpw, hlt⟩ := h
  unfold pyFinish
  cases hc : s.current with
  | none =>
    dsimp only
    by_cases he : s.chunks.isEmpty = true
    · rw [if_pos he]
      refine ⟨fun c hcm => ?_, List.pairwise_singleton _ _⟩
      simp only [List.mem_singleton] at hcm
      subst hcm
      exact ⟨le_refl 1, hn, le_refl _⟩
    · rw [if_neg he]
      refine ⟨fun c hcm => ?_, hpw⟩
      have := hb c hcm
      exact ⟨this.1, this.2.1, by omega⟩
  | some t =>
    have hop : s.current.isSome = true := by simp [hc]
    obtain ⟨hcs1, hcs2⟩ := hcur hop
    dsimp only
    rw [if_neg (by simp)]
    constructor
    · intro c hcm
      simp only [List.mem_append, List.mem_singleton] at hcm
      rcases hcm with hcm | hcm
      · have := hb c hcm
        exact ⟨this.1, this.2.1, by omega⟩
      · subst hcm; dsimp only; omega
    · refine pairwise_append_one hpw (fun c hcm => ?_)
      have := hlt hop c hcm
      show c.end_line < s.chunkStart
      omega

/-- Bounds and disjointness of the chunk list produced by
`_parse_python`. -/
theorem parsePython_props (content : String) :
    (∀ c ∈ parsePython content,
        1 ≤ c.start_line ∧ c.start_line ≤ c.end_line ∧ c.end_line ≤ numLines content) ∧
    (parsePython content).Pairwise chunkDisj := by
  have hn : 1 ≤ (splitLines content).length := splitLinesAux_length_pos [] content.data
  have h0 : pyInv 1 { chunks := [], current := none, currentIndent := 0, chunkStart := 0 } :=
    ⟨by simp, by simp, by simp, by simp⟩
  have hfin := pyLoop_inv (splitLines content) (splitLines content) 1 _ (le_refl 1) h0
  have heq : (1 : Nat) + (splitLines content).length = (splitLines content).length + 1 := by
    omega
  rw [heq] at hfin
  exact pyFinish_props content (splitLines content) _ hn hfin

/-- Branch equation for `jsOpen`: no keyword substring. -/
theorem jsOpen_no {lines : List String} {language : String} {i : Nat} {stripped : String}
    {s : JsState} (h : (jsKeywords.any (fun k => containsSub stripped k)) = false) :
    jsOpen lines language i stripped s = s := by
  simp [jsOpen, h]

/-- Branch equation for `jsOpen`: keyword line with no open chunk. -/
theorem jsOpen_none {lines : List String} {language : String} {i : Nat} {stripped : String}
    {s : JsState} (h : (jsKeywords.any (fun k => containsSub stripped k)) = true)
    (hc : s.current = none) :
    jsOpen lines language i stripped s =
      { chunks := s.chunks,
        current := some (if containsSub stripped "function" then "function"
                         else if containsSub stripped "class" then "class" else "variable"),
        chunkStart := i,
        braceCount := (countChar stripped '\x7b' : Int) - (countChar stripped '\x7d' : Int) } := by
  simp [jsOpen, h, hc]

/-- Branch equation for `jsOpen`: keyword line closing the open chunk at
line `i - 1`. -/
theorem jsOpen_some {lines : List String} {language : String} {i : Nat} {stripped : String}
    {s : JsState} {t : String}
    (h : (jsKeywords.any (fun k => containsSub stripped k)) = true)
    (hc : s.current = some t) :
    jsOpen lines language i stripped s =
      { chunks := s.chunks ++ [{ content := sliceJoin lines (s.chunkStart - 1) (i - 1),
                                 start_line := s.chunkStart, end_line := i - 1,
                                 type := t, language := language }],
        current := some (if containsSub stripped "function" then "function"
                         else if containsSub stripped "class" then "class" else "variable"),
        chunkStart := i,
        braceCount := (countChar stripped '\x7b' : Int) - (countChar stripped '\x7d' : Int) } := by
  simp [jsOpen, h, hc]

/-- The keyword stage takes the invariant to the intermediate invariant. -/
theorem jsOpen_inv (lines : List String) (language : String) (i : Nat) (stripped : String)
    (s : JsState) (hi : 1 ≤ i) (h : jsInv i s) :
    jsInvMid i (jsOpen lines language i stripped s) := by
  obtain ⟨hb, hcur, hpw, hlt⟩ := h
  by_cases hk : (jsKeywords.any (fun k => containsSub stripped k)) = true
  · cases hc : s.current with
    | none =>
      rw [jsOpen_none hk hc]
      refine ⟨hb, fun _ => ⟨hi, le_refl i⟩, hpw, fun _ c hcm => ?_⟩
      have := (hb c hcm).2.2
      show c.end_line < i
      omega
    | some t =>
      have hop : s.current.isSome = true := by simp [hc]
      obtain ⟨hcs1, hcs2⟩ := hcur hop
      rw [jsOpen_some hk hc]
      refine ⟨?_, fun _ => ⟨hi, le_refl i⟩, ?_, ?_⟩
      · intro c hcm
        simp only [List.mem_append, List.mem_singleton] at hcm
        rcases hcm with hcm | hcm
        · have := hb c hcm; omega
        · subst hcm; dsimp only; omega
      · refine pairwise_append_one hpw (fun c hcm => ?_)
        have := hlt hop c hcm
        show c.end_line < s.chunkStart
        omega
      · intro _ c hcm
        simp only [List.mem_append, List.mem_singleton] at hcm
        rcases hcm with hcm | hcm
        · have := (hb c hcm).2.2
          show c.end_line < i
          omega
        · subst hcm
          show i - 1 < i
          omega
  · rw [Bool.not_eq_true] at hk
    rw [jsOpen_no hk]
    refine ⟨hb, fun ho => ?_, hpw, hlt⟩
    have := hcur ho; omega

/-- The brace-tracking stage only touches `braceCount` and so preserves
the intermediate invariant. -/
theorem jsAddBraces_inv (line : String) (i : Nat) (s : JsState) (h : jsInvMid i s) :
    jsInvMid i (jsAddBraces line s) := by
  obtain ⟨hb, hcur, hpw, hlt⟩ := h
  unfold jsAddBraces
  exact ⟨hb, hcur, hpw, hlt⟩

/-- The closing stage restores the invariant at `i + 1`. -/
theorem jsClose_inv (lines : List String) (language : String) (i : Nat) (line : String)
    (s : JsState) (_hi : 1 ≤ i) (h : jsInvMid i s) :
    jsInv (i + 1) (jsClose lines language i line s) := by
  obtain ⟨hb, hcur, hpw, hlt⟩ := h
  unfold jsClose
  cases hc : s.current with
  | none =>
    dsimp only
    refine ⟨fun c hcm => ?_, by simp [hc], hpw, by simp [hc]⟩
    have := hb c hcm; omega
  | some t =>
    have hop : s.current.isSome = true := by simp [hc]
    obtain ⟨hcs1, hcs2⟩ := hcur hop
    dsimp only
    by_cases hcl : (s.braceCount == 0 && containsChar line '\x7b') = true
    · rw [if_pos hcl]
      refine ⟨?_, by simp, ?_, by simp⟩
      · intro c hcm
        simp only [List.mem_append, List.mem_singleton] at hcm
        rcases hcm with hcm | hcm
        · have := hb c hcm; omega
        · subst hcm; dsimp only; omega
      · refine pairwise_append_one hpw (fun c hcm => ?_)
        have := hlt hop c hcm
        show c.end_line < s.chunkStart
        omega
    · rw [if_neg hcl]
      refine ⟨fun c hcm => ?_, fun _ => ⟨hcs1, by omega⟩, hpw, fun _ => hlt hop⟩
      have := hb c hcm; omega

/-- One `_parse_javascript` iteration preserves the invariant. -/
theorem jsStep_inv (lines : List String) (language : String) (i : Nat) (line : String)
    (s : JsState) (hi : 1 ≤ i) (h : jsInv i s) :
    jsInv (i + 1) (jsStep lines language i line s) :=
  jsClose_inv lines language i line _ hi
    (jsAddBraces_inv line i _ (jsOpen_inv lines language i (stripStr line) s hi h))

/-- The `_parse_javascript` loop preserves the invariant. -/
theorem jsLoop_inv (lines : List String) (language : String) (rest : List String) :
    ∀ (i : Nat) (s : JsState), 1 ≤ i → jsInv i s →
      jsInv (i + rest.length) (jsLoop lines language i rest s) := by
  induction rest with
  | nil => intro i s _ h; simpa [jsLoop] using h
  | cons l rest ih =>
    intro i s hi h
    have step := jsStep_inv lines language i l s hi h
    have tail := ih (i + 1) (jsStep lines language i l s) (by omega) step
    have : i + (l :: rest).length = (i + 1) + rest.length := by
      simp [List.length_cons]; omega
    rw [this]
    simpa [jsLoop] using tail

/-- `jsFinish` turns an invariant-respecting final state into a
well-bounded, pairwise-disjoint chunk list. -/
theorem jsFinish_props (content : String) (language : String) (lines : List String)
    (s : JsState) (hn : 1 ≤ lines.length) (h : jsInv (lines.length + 1) s) :
    (∀ c ∈ jsFinish content language lines s,
        1 ≤ c.start_line ∧ c.start_line ≤ c.end_line ∧ c.end_line ≤ lines.length) ∧
    (jsFinish content language lines s).Pairwise chunkDisj := by
  obtain ⟨hb, hcur, hpw, hlt⟩ := h
  unfold jsFinish
  cases hc : s.current with
  | none =>
    dsimp only
    by_cases he : s.chunks.isEmpty = true
    · rw [if_pos he]
      refine ⟨fun c hcm => ?_, List.pairwise_singleton _ _⟩
      simp only [List.mem_singleton] at hcm
      subst hcm
      exact ⟨le_refl 1, hn, le_refl _⟩
    · rw [if_neg he]
      refine ⟨fun c hcm => ?_, hpw⟩
      have := hb c hcm
      exact ⟨this.1, this.2.1, by omega⟩
  | some t =>
    have hop : s.current.isSome = true := by simp [hc]
    obtain ⟨hcs1, hcs2⟩ := hcur hop
    dsimp only
    rw [if_neg (by simp)]
    constructor
    · intro c hcm
      simp only [List.mem_append, List.mem_singleton] at hcm
      rcases hcm with hcm | hcm
      · have := hb c hcm
        exact ⟨this.1, this.2.1, by omega⟩
      · subst hcm; dsimp only; omega
    · refine pairwise_append_one hpw (fun c hcm => ?_)
      have := hlt hop c hcm
      show c.end_line < s.chunkStart
      omega

/-- Bounds and disjointness of the chunk list produced by
`_parse_javascript`. -/
theorem parseJavascript_props (content : String) (language : String) :
    (∀ c ∈ parseJavascript content language,
        1 ≤ c.start_line ∧ c.start_line ≤ c.end_line ∧ c.end_line ≤ numLines content) ∧
    (parseJavascript content language).Pairwise chunkDisj := by
  have hn : 1 ≤ (splitLines content).length := splitLinesAux_length_pos [] content.data
  have h0 : jsInv 1 { chunks := [], current := none, chunkStart := 0, braceCount := 0 } :=
    ⟨by simp, by simp, by simp, by simp⟩
  have hfin := jsLoop_inv (splitLines content) language (splitLines content) 1 _ (le_refl 1) h0
  have heq : (1 : Nat) + (splitLines content).length = (splitLines content).length + 1 := by
    omega
  rw [heq] at hfin
  exact jsFinish_props content language (splitLines content) _ hn hfin

/-- There is a window for index `k` exactly when `100 * k` is below the
line count. -/
theorem parseGeneric_length (content language : String) :
    (parseGeneric content language).length = (numLines content + 99) / 100 := by
  unfold parseGeneric
  simp [List.length_map, List.length_range, numLines]

/-- A window index below the window count starts within the file. -/
theorem windowStart_lt {k n : Nat} (hk : k < (n + 99) / 100) : 100 * k + 1 ≤ n := by
  have h2 : k + 1 ≤ (n + 99) / 100 := hk
  have h3 : (k + 1) * 100 ≤ n + 99 := (Nat.le_div_iff_mul_le (by norm_num)).mp h2
  omega

/-- The window formula of `_parse_generic`: chunk `k` spans lines
`[100 k + 1, min (100 (k + 1)) n]` and carries that window's text. -/
theorem parseGeneric_getElem (content language : String) (k : Nat) (c : Chunk)
    (h : (parseGeneric content language)[k]? = some c) :
    c.content = joinNl (((splitLines content).drop (100 * k)).take 100) ∧
    c.start_line = 100 * k + 1 ∧
    c.end_line = min (100 * (k + 1)) (numLines content) ∧
    c.type = "code" ∧ c.language = language := by
  have hk : k < ((splitLines content).length + 99) / 100 := by
    by_contra hk
    rw [List.getElem?_eq_none
      (by rw [parseGeneric_length]; unfold numLines; omega)] at h
    exact Option.noConfusion h
  have hval : (parseGeneric content language)[k]? =
      some { content := joinNl (((splitLines content).drop (100 * k)).take 100),
             start_line := 100 * k + 1,
             end_line := min (100 * k + 100) ((splitLines content).length),
             type := "code", language := language } := by
    unfold parseGeneric
    rw [List.getElem?_map, List.getElem?_range hk]
    rfl
  rw [hval] at h
  have hc := Option.some.inj h
  subst hc
  refine ⟨rfl, rfl, ?_, rfl, rfl⟩
  show min (100 * k + 100) ((splitLines content).length) = min (100 * (k + 1)) (numLines content)
  have : 100 * (k + 1) = 100 * k + 100 := by omega
  rw [this]
  rfl

/-- Every `_parse_generic` chunk is well-formed and inside the file. -/
theorem parseGeneric_bounds (content language : String) :
    ∀ c ∈ parseGeneric content language,
      1 ≤ c.start_line ∧ c.start_line ≤ c.end_line ∧ c.end_line ≤ numLines content := by
  intro c hc
  unfold parseGeneric at hc
  rw [List.mem_map] at hc
  obtain ⟨k, hk, hck⟩ := hc
  rw [List.mem_range] at hk
  subst hck
  have h1 : 100 * k + 1 ≤ (splitLines content).length := windowStart_lt hk
  refine ⟨?_, ?_, ?_⟩
  · show 1 ≤ 100 * k + 1
    omega
  · show 100 * k + 1 ≤ min (100 * k + 100) ((splitLines content).length)
    exact le_min (by omega) h1
  · show min (100 * k + 100) ((splitLines content).length) ≤ numLines content
    exact min_le_right _ _

/-- `_parse_generic` windows are pairwise disjoint and in order. -/
theorem parseGeneric_pairwise (content language : String) :
    (parseGeneric content language).Pairwise chunkDisj := by
  unfold parseGeneric
  rw [List.pairwise_map]
  refine List.Pairwise.imp ?_ (List.pairwise_lt_range _)
  intro a b hab
  show min (100 * a + 100) ((splitLines content).length) < 100 * b + 1
  have h1 : 100 * a + 100 ≤ 100 * b := by omega
  have h2 := min_le_left (100 * a + 100) ((splitLines content).length)
  omega

/-- The 100-line windows of `_parse_generic`, concatenated in order, are
exactly the file's lines: the split covers the file with no gap and no
overlap. -/
theorem windowsCover (l : List String) :
    ((List.range ((l.length + 99) / 100)).map (fun k => (l.drop (100 * k)).take 100)).flatten
      = l := by
  rcases eq_or_ne l [] with rfl | hne
  · simp
  · have hn : 1 ≤ l.length := List.length_pos.mpr hne
    have ih := windowsCover (l.drop 100)
    have hm : (l.length + 99) / 100 = ((l.drop 100).length + 99) / 100 + 1 := by
      rw [List.length_drop]
      rcases le_or_lt l.length 100 with hle | hlt
      · have h2 : l.length - 100 = 0 := by omega
        have h1 : (l.length + 99) / 100 = 1 :=
          Nat.div_eq_of_lt_le (by omega) (by omega)
        rw [h2, h1]
      · have h3 : l.length + 99 = (l.length - 100 + 99) + 100 := by omega
        rw [h3, Nat.add_div_right _ (by norm_num)]
    rw [hm, List.range_succ_eq_map, List.map_cons, List.flatten_cons, List.map_map]
    have hf : ((fun k => (l.drop (100 * k)).take 100) ∘ Nat.succ) =
        (fun k => ((l.drop 100).drop (100 * k)).take 100) := by
      funext k
      simp only [Function.comp_apply, List.drop_drop]
      have : 100 * Nat.succ k = 100 + 100 * k := by omega
      rw [this]
    rw [hf, ih]
    simp only [Nat.mul_zero, List.drop_zero]
    exact List.take_append_drop 100 l
termination_by l.length
decreasing_by
  simp only [List.length_drop]
  omega

/-- One `_parse_python` iteration emits only known chunk kinds. -/
theorem pyStep_kind (lines : List String) (i : Nat) (line : String) (s : PyState)
    (h : pyKindInv s) : pyKindInv (pyStep lines i line s) := by
  obtain ⟨hb, hcur⟩ := h
  have hlabel : (if containsSub (lstripStr line) "def" then "function" else "class") ∈ chunkKinds := by
    by_cases hd : containsSub (lstripStr line) "def" = true
    · simp [hd, chunkKinds]
    · rw [Bool.not_eq_true] at hd
      simp [hd, chunkKinds]
  by_cases h1 : (lstripStr line == "" || startsWithStr (lstripStr line) "#") = true
  · rw [pyStep_skip h1]; exact ⟨hb, hcur⟩
  · rw [Bool.not_eq_true] at h1
    by_cases h2 : startsDef (lstripStr line) = true
    · cases hc : s.current with
      | none =>
        rw [pyStep_def_none h1 h2 hc]
        exact ⟨hb, fun t ht => by injection ht with ht; subst ht; exact hlabel⟩
      | some t =>
        rw [pyStep_def_some h1 h2 hc]
        refine ⟨fun c hcm => ?_, fun u hu => by injection hu with hu; subst hu; exact hlabel⟩
        simp only [List.mem_append, List.mem_singleton] at hcm
        rcases hcm with hcm | hcm
        · exact hb c hcm
        · subst hcm; exact hcur t hc
    · rw [Bool.not_eq_true] at h2
      cases hc : s.current with
      | none => rw [pyStep_keep h1 h2 (Or.inl hc)]; exact ⟨hb, hcur⟩
      | some t =>
        by_cases h3 : line.length - (lstripStr line).length ≤ s.currentIndent
        · rw [pyStep_dedent h1 h2 hc h3]
          refine ⟨fun c hcm => ?_, by simp⟩
          simp only [List.mem_append, List.mem_singleton] at hcm
          rcases hcm with hcm | hcm
          · exact hb c hcm
          · subst hcm; exact hcur t hc
        · rw [pyStep_keep h1 h2 (Or.inr h3)]; exact ⟨hb, hcur⟩

/-- The `_parse_python` loop emits only known chunk kinds. -/
theorem pyLoop_kind (lines : List String) (rest : List String) :
    ∀ (i : Nat) (s : PyState), pyKindInv s → pyKindInv (pyLoop lines i rest s) := by
  induction rest with
  | nil => intro i s h; simpa [pyLoop] using h
  | cons l rest ih =>
    intro i s h
    have step := pyStep_kind lines i l s h
    simpa [pyLoop] using ih (i + 1) _ step

/-- Every chunk of `pyFinish` has a known kind. -/
theorem pyFinish_kind (content : String) (lines : List String) (s : PyState)
    (h : pyKindInv s) : ∀ c ∈ pyFinish content lines s, c.type ∈ chunkKinds := by
  obtain ⟨hb, hcur⟩ := h
  intro c hcm
  unfold pyFinish at hcm
  cases hc : s.current with
  | none =>
    rw [hc] at hcm
    dsimp only at hcm
    by_cases he : s.chunks.isEmpty = true
    · rw [if_pos he] at hcm
      simp only [List.mem_singleton] at hcm
      subst hcm
      simp [chunkKinds]
    · rw [if_neg he] at hcm
      exact hb c hcm
  | some t =>
    rw [hc] at hcm
    dsimp only at hcm
    rw [if_neg (by simp)] at hcm
    simp only [List.mem_append, List.mem_singleton] at hcm
    rcases hcm with hcm | hcm
    · exact hb c hcm
    · subst hcm; exact hcur t hc

/-- Every `_parse_python` chunk has a known kind. -/
theorem parsePython_kind (content : String) :
    ∀ c ∈ parsePython content, c.type ∈ chunkKinds := by
  have h0 : pyKindInv { chunks := [], current := none, currentIndent := 0, chunkStart := 0 } :=
    ⟨by simp, by simp⟩
  exact pyFinish_kind content (splitLines content) _
    (pyLoop_kind (splitLines content) (splitLines content) 1 _ h0)

/-- The `_parse_javascript` keyword stage emits only known chunk kinds. -/
theorem jsOpen_kind (lines : List String) (language : String) (i : Nat) (stripped : String)
    (s : JsState) (h : jsKindInv s) : jsKindInv (jsOpen lines language i stripped s) := by
  obtain ⟨hb, hcur⟩ := h
  have hlabel : (if containsSub stripped "function" then "function"
      else if containsSub stripped "class" then "class" else "variable") ∈ chunkKinds := by
    by_cases hf : containsSub stripped "function" = true
    · simp [hf, chunkKinds]
    · rw [Bool.not_eq_true] at hf
      by_cases hcl : containsSub stripped "class" = true
      · simp [hf, hcl, chunkKinds]
      · rw [Bool.not_eq_true] at hcl
        simp [hf, hcl, chunkKinds]
  by_cases hk : (jsKeywords.any (fun k => containsSub stripped k)) = true
  · cases hc : s.current with
    | none =>
      rw [jsOpen_none hk hc]
      exact ⟨hb, fun t ht => by injection ht with ht; subst ht; exact hlabel⟩
    | some t =>
      rw [jsOpen_some hk hc]
      refine ⟨fun c hcm => ?_, fun u hu => by injection hu with hu; subst hu; exact hlabel⟩
      simp only [List.mem_append, List.mem_singleton] at hcm
      rcases hcm with hcm | hcm
      · exact hb c hcm
      · subst hcm; exact hcur t hc
  · rw [Bool.not_eq_true] at hk
    rw [jsOpen_no hk]
    exact ⟨hb, hcur⟩

/-- The `_parse_javascript` closing stage emits only known chunk kinds. -/
theorem jsClose_kind (lines : List String) (language : String) (i : Nat) (line : String)
    (s : JsState) (h : jsKindInv s) : jsKindInv (jsClose lines language i line s) := by
  obtain ⟨hb, hcur⟩ := h
  unfold jsClose
  cases hc : s.current with
  | none => exact ⟨hb, hcur⟩
  | some t =>
    dsimp only
    by_cases hcl : (s.braceCount == 0 && containsChar line '\x7b') = true
    · rw [if_pos hcl]
      refine ⟨fun c hcm => ?_, by simp⟩
      simp only [List.mem_append, List.mem_singleton] at hcm
      rcases hcm with hcm | hcm
      · exact hb c hcm
      · subst hcm; exact hcur t hc
    · rw [if_neg hcl]
      exact ⟨hb, fun u hu => hcur u (hc ▸ hu)⟩

/-- One `_parse_javascript` iteration emits only known chunk kinds. -/
theorem jsStep_kind (lines : List String) (language : String) (i : Nat) (line : String)
    (s : JsState) (h : jsKindInv s) : jsKindInv (jsStep lines language i line s) := by
  have h1 := jsOpen_kind lines language i (stripStr line) s h
  have h2 : jsKindInv (jsAddBraces line (jsOpen lines language i (stripStr line) s)) := by
    obtain ⟨hb, hcur⟩ := h1
    exact ⟨hb, hcur⟩
  exact jsClose_kind lines language i line _ h2

/-- The `_parse_javascript` loop emits only known chunk kinds. -/
theorem jsLoop_kind (lines : List String) (language : String) (rest : List String) :
    ∀ (i : Nat) (s : JsState), jsKindInv s → jsKindInv (jsLoop lines language i rest s) := by
  induction rest with
  | nil => intro i s h; simpa [jsLoop] using h
  | cons l rest ih =>
    intro i s h
    have step := jsStep_kind lines language i l s h
    simpa [jsLoop] using ih (i + 1) _ step

/-- Every chunk of `jsFinish` has a known kind. -/
theorem jsFinish_kind (content : String) (language : String) (lines : List String)
    (s : JsState) (h : jsKindInv s) :
    ∀ c ∈ jsFinish content language lines s, c.type ∈ chunkKinds := by
  obtain ⟨hb, hcur⟩ := h
  intro c hcm
  unfold jsFinish at hcm
  cases hc : s.current with
  | none =>
    rw [hc] at hcm
    dsimp only at hcm
    by_cases he : s.chunks.isEmpty = true
    · rw [if_pos he] at hcm
      simp only [List.mem_singleton] at hcm
      subst hcm
      simp [chunkKinds]
    · rw [if_neg he] at hcm
      exact hb c hcm
  | some t =>
    rw [hc] at hcm
    dsimp only at hcm
    rw [if_neg (by simp)] at hcm
    simp only [List.mem_append, List.mem_singleton] at hcm
    rcases hcm with hcm | hcm
    · exact hb c hcm
    · subst hcm; exact hcur t hc

/-- Every `_parse_javascript` chunk has a known kind. -/
theorem parseJavascript_kind (content : String) (language : String) :
    ∀ c ∈ parseJavascript content language, c.type ∈ chunkKinds := by
  have h0 : jsKindInv { chunks := [], current := none, chunkStart := 0, braceCount := 0 } :=
    ⟨by simp, by simp⟩
  exact jsFinish_kind content language (splitLines content) _
    (jsLoop_kind (splitLines content) language (splitLines content) 1 _ h0)

/-- Every `_parse_generic` chunk has a known kind. -/
theorem parseGeneric_kind (content language : String) :
    ∀ c ∈ parseGeneric content language, c.type ∈ chunkKinds := by
  intro c hc
  unfold parseGeneric at hc
  rw [List.mem_map] at hc
  obtain ⟨k, _, hck⟩ := hc
  subst hck
  show "code" ∈ chunkKinds
  simp [chunkKinds]

/-! ## Claim theorems -/

/-- Claim C1: the VectorPoint identifier computed during indexing is a
pure function of the triple `(file_path, start_line, end_line)`: two
chunks with identical file path, start line and end line receive the same
identifier, irrespective of their content (or any other attribute). -/
theorem claim1_point_id_content_independent (filePath : String) (c1 c2 : Chunk)
    (hs : c1.start_line = c2.start_line) (he : c1.end_line = c2.end_line) :
    chunkPointId filePath c1 = chunkPointId filePath c2 := by
  unfold chunkPointId
  rw [hs, he]

/-- Witness for C1: two chunks over the same line range of the same file
but with different contents get the same identifier. -/
theorem claim1_witness :
    chunkPointId "a.py"
      { content := "def foo():\n    pass", start_line := 1, end_line := 4,
        type := "function", language := "python" } =
    chunkPointId "a.py"
      { content := "def foo():\n    return 2", start_line := 1, end_line := 4,
        type := "function", language := "python" } :=
  claim1_point_id_content_independent "a.py" _ _ rfl rfl

/-- Claim C2: `parse_file` never propagates an exception: every outcome of
the wrapped body yields a plain chunk list (success), and a failed file
read degrades to the empty list (the file is skipped, the indexing pass
continues). -/
theorem claim2_parse_file_never_throws (readResult : Except String String)
    (suffix : String) :
    exceptIsOk (parse_file readResult suffix) = true ∧
    (∀ e, readResult = Except.error e → parse_file readResult suffix = Except.ok []) := by
  constructor
  · unfold parse_file
    cases parseFileBody readResult suffix with
    | ok l => rfl
    | error e => rfl
  · intro e he
    subst he
    rfl

/-- Witness for C2: a read failure on a `.py` file produces the empty
chunk list, not an exception. -/
theorem claim2_witness :
    exceptIsOk (parse_file (Except.error "read failed") ".py") = true ∧
    parse_file (Except.error "read failed") ".py" = Except.ok [] :=
  ⟨(claim2_parse_file_never_throws (Except.error "read failed") ".py").1,
   (claim2_parse_file_never_throws (Except.error "read failed") ".py").2 "read failed" rfl⟩

/-- Claim C3: the chunk sequences produced by the indentation scanner and
the brace scanner are emitted in increasing line order with pairwise
disjoint `[start_line, end_line]` ranges (each chunk ends strictly before
the next begins); this holds for every input file, in particular for
files with at least one top-level definition. -/
theorem claim3_chunks_disjoint (content language : String) :
    (parsePython content).Pairwise chunkDisj ∧
    (parseJavascript content language).Pairwise chunkDisj :=
  ⟨(parsePython_props content).2, (parseJavascript_props content language).2⟩

/-- Counterexample to C4 as stated: on the 5-line scenario file the
scanner does not produce two chunks with a function chunk of lines 1-4;
the dedent close absorbs line 5 into the function chunk. -/
theorem claim4_counterexample :
    ¬ ((parsePython pyFile5).length = 2 ∧
       ∃ c ∈ parsePython pyFile5,
         c.type = "function" ∧ c.start_line = 1 ∧ c.end_line = 4) := by
  decide

/-- Claim C4 (amended): on the 5-line scenario file the scanner yields
exactly one chunk, of kind `function`, spanning lines 1-5: the dedent
line 5 is absorbed into the closing function chunk. -/
theorem claim4_amended :
    parsePython pyFile5 =
      [{ content := pyFile5, start_line := 1, end_line := 5,
         type := "function", language := "python" }] := by
  decide

/-- Claim C5: every chunk produced by any of the three scanners from a
file of `numLines content` lines satisfies
`1 ≤ start_line ≤ end_line ≤ numLines content`. -/
theorem claim5_chunk_bounds (content language : String) (c : Chunk) :
    (c ∈ parsePython content →
       1 ≤ c.start_line ∧ c.start_line ≤ c.end_line ∧ c.end_line ≤ numLines content) ∧
    (c ∈ parseJavascript content language →
       1 ≤ c.start_line ∧ c.start_line ≤ c.end_line ∧ c.end_line ≤ numLines content) ∧
    (c ∈ parseGeneric content language →
       1 ≤ c.start_line ∧ c.start_line ≤ c.end_line ∧ c.end_line ≤ numLines content) :=
  ⟨fun h => (parsePython_props content).1 c h,
   fun h => (parseJavascript_props content language).1 c h,
   fun h => parseGeneric_bounds content language c h⟩

/-- Witness for C5 at a concrete one-line file. -/
theorem claim5_witness :
    ({ content := "x = 1", start_line := 1, end_line := 1, type := "file",
       language := "python" } : Chunk) ∈ parsePython "x = 1" ∧
    (1 ≤ 1 ∧ 1 ≤ 1 ∧ 1 ≤ numLines "x = 1") :=
  ⟨by decide,
   (claim5_chunk_bounds "x = 1" "java"
     { content := "x = 1", start_line := 1, end_line := 1, type := "file",
       language := "python" }).1 (by decide)⟩

/-- Counterexample to C6 as stated: the generic scanner labels its chunks
with the kind string `code`, which is not in the claimed set
`\x7bfunction, class, variable, file, code-block\x7d`. -/
theorem claim6_counterexample :
    (parseGeneric "x" "java").map (fun c => c.type) = ["code"] ∧
    "code" ∉ ["function", "class", "variable", "file", "code-block"] := by
  decide

/-- Claim C6 (amended): every chunk produced by any scanner has a kind in
`\x7bfunction, class, variable, file, code\x7d` (the generic fallback label is
`code`, not `code-block`). -/
theorem claim6_amended (content language : String) (c : Chunk) :
    (c ∈ parsePython content → c.type ∈ chunkKinds) ∧
    (c ∈ parseJavascript content language → c.type ∈ chunkKinds) ∧
    (c ∈ parseGeneric content language → c.type ∈ chunkKinds) :=
  ⟨fun h => parsePython_kind content c h,
   fun h => parseJavascript_kind content language c h,
   fun h => parseGeneric_kind content language c h⟩

/-- Witness for C6 at a concrete one-line file. -/
theorem claim6_witness :
    ({ content := "x = 1", start_line := 1, end_line := 1, type := "file",
       language := "python" } : Chunk) ∈ parsePython "x = 1" ∧
    "file" ∈ chunkKinds :=
  ⟨by decide,
   (claim6_amended "x = 1" "java"
     { content := "x = 1", start_line := 1, end_line := 1, type := "file",
       language := "python" }).1 (by decide)⟩

/-- Claim C7: the generic fallback splits a file into fixed windows of
100 consecutive lines: chunk `k` spans exactly
`[100 k + 1, min (100 (k + 1)) n]` and carries that window's text, the
windows are pairwise disjoint, and concatenated in order the windows are
exactly the file's lines (the whole file, with no gap and no overlap). -/
theorem claim7_generic_windows (content language : String) :
    (∀ (k : Nat) (c : Chunk), (parseGeneric content language)[k]? = some c →
       c.start_line = 100 * k + 1 ∧
       c.end_line = min (100 * (k + 1)) (numLines content) ∧
       c.content = joinNl (((splitLines content).drop (100 * k)).take 100)) ∧
    (parseGeneric content language).Pairwise chunkDisj ∧
    ((List.range ((numLines content + 99) / 100)).map
        (fun k => ((splitLines content).drop (100 * k)).take 100)).flatten
      = splitLines content := by
  refine ⟨?_, parseGeneric_pairwise content language, ?_⟩
  · intro k c h
    have hp := parseGeneric_getElem content language k c h
    exact ⟨hp.2.1, hp.2.2.1, hp.1⟩
  · exact windowsCover (splitLines content)

/-- Witness for C7 at a concrete two-line file: its single window is
chunk 0 spanning lines 1-2. -/
theorem claim7_witness :
    ((parseGeneric "a\nb" "go")[0]? =
      some { content := "a\nb", start_line := 1, end_line := 2, type := "code",
             language := "go" }) ∧
    ({ content := "a\nb", start_line := 1, end_line := 2, type := "code",
       language := "go" } : Chunk).start_line = 100 * 0 + 1 :=
  ⟨by decide, ((claim7_generic_windows "a\nb" "go").1 0 _ (by decide)).1⟩

/-- Counterexample to C8 as stated: for the generic language family
(e.g. Java) an empty file yields exactly one chunk, but of kind `code`,
not `file`. -/
theorem claim8_counterexample :
    (parseGeneric "" "java").length = 1 ∧
    ∀ c ∈ parseGeneric "" "java", c.type ≠ "file" := by
  decide

/-- Claim C8 (amended): an empty file yields exactly one chunk spanning
the whole (zero-length) content; its kind is `file` for the indentation
and brace scanners but `code` for the generic fallback. -/
theorem claim8_amended (language : String) :
    parsePython "" = [{ content := "", start_line := 1, end_line := 1,
                        type := "file", language := "python" }] ∧
    parseJavascript "" language =
      [{ content := "", start_line := 1, end_line := 1, type := "file",
         language := language }] ∧
    parseGeneric "" language =
      [{ content := "", start_line := 1, end_line := 1, type := "code",
         language := language }] :=
  ⟨rfl, rfl, rfl⟩

/-- Claim C9: on transport or service failure `generate_embedding`
returns the all-zero 768-vector instead of propagating the failure; on a
successful response it returns the service's embedding unchanged. -/
theorem claim9_embedder_fallback (service : String → Except String EmbedResponse)
    (text : String) :
    (∀ e, service (takeChars text 8192) = Except.error e →
       generate_embedding service text = List.replicate 768 0) ∧
    (∀ r, service (takeChars text 8192) = Except.ok r →
       generate_embedding service text = r.embedding.getD []) ∧
    (∀ v, service (takeChars text 8192) = Except.ok { embedding := some v } →
       generate_embedding service text = v) := by
  refine ⟨fun e he => ?_, fun r hr => ?_, fun v hv => ?_⟩
  · unfold generate_embedding
    rw [he]
  · unfold generate_embedding
    rw [hr]
  · unfold generate_embedding
    rw [hv]
    rfl

/-- Witness for C9: a failing transport yields the zero vector. -/
theorem claim9_witness :
    ((fun _ => Except.error "connection refused" :
        String → Except String EmbedResponse) (takeChars "hello" 8192) =
      Except.error "connection refused") ∧
    generate_embedding (fun _ => Except.error "connection refused") "hello" =
      List.replicate 768 0 :=
  ⟨rfl, (claim9_embedder_fallback (fun _ => Except.error "connection refused") "hello").1
    "connection refused" rfl⟩

/-- Claim C10: of the query-time error path only `generate_query_embedding`
is valid code, and it re-raises a transport failure instead of returning a
silent empty embedding (its error outcome is never the empty-success
outcome).  The `/search` handler `search_code` itself is a SyntaxError in
the source (a bare `try:` with no `except`/`finally` at
`rag-chat/main.py` lines 170-178), so the module never imports and the
endpoint behavior the claim describes cannot execute at all. -/
theorem claim10_query_embedding_reraises :
    (∀ e, generate_query_embedding (Except.error e) = Except.error e) ∧
    (∀ e, generate_query_embedding (Except.error e) ≠ Except.ok []) ∧
    (∀ emb, generate_query_embedding (Except.ok emb) = Except.ok (emb.getD [])) :=
  ⟨fun _ => rfl, fun _ h => Except.noConfusion h, fun _ => rfl⟩

end CodeBuddy
